import Mathlib

/-!
Shallow embedding of `HackGULastRecodePatch.py` (the single source file of
the repository HackGULastRecodeFix) and proofs about the claims on it.

Python byte strings are modelled as `List Nat` (each entry a byte value),
Python text strings as `List Char`.  Fallible operations (`int(tok, 16)`,
`bytes(...)`, `int.to_bytes`) are modelled with `Option`/`Except`, where a
`none`/`error` result models a raised Python exception.
-/

set_option maxRecDepth 4000

namespace HackGU

/-- Decidable equality for `Except`, needed to evaluate concrete runs of the
embedded functions inside `decide`. -/
instance {ε α : Type} [DecidableEq ε] [DecidableEq α] : DecidableEq (Except ε α) := fun x y =>
  match x, y with
  | .error a, .error b =>
    if h : a = b then .isTrue (by rw [h]) else .isFalse (fun he => h (by cases he; rfl))
  | .ok a, .ok b =>
    if h : a = b then .isTrue (by rw [h]) else .isFalse (fun he => h (by cases he; rfl))
  | .error _, .ok _ => .isFalse (fun he => Except.noConfusion he)
  | .ok _, .error _ => .isFalse (fun he => Except.noConfusion he)

/-- Binding a successful `Except` computation just applies the
continuation. -/
theorem except_bind_ok {ε α β : Type} (a : α) (f : α → Except ε β) :
    (Except.ok a : Except ε α) >>= f = f a := rfl

/-- The ASCII whitespace characters recognised by Python's `str.split()` and
`str.strip()` (the source only ever feeds ASCII strings to them). -/
def pyIsSpace (c : Char) : Bool :=
  c = ' ' ∨ c = '\t' ∨ c = '\n' ∨ c = '\r' ∨ c = '\x0b' ∨ c = '\x0c'

/-- Worker for `pySplit`: `acc` holds the characters of the token currently
being read, in reverse order. -/
def pySplitAux : List Char → List Char → List (List Char)
  | acc, [] => if acc = [] then [] else [acc.reverse]
  | acc, c :: cs =>
    if pyIsSpace c then
      if acc = [] then pySplitAux [] cs else acc.reverse :: pySplitAux [] cs
    else pySplitAux (c :: acc) cs

/-- Model of Python `str.split()` (no separator argument): split on runs of
whitespace, producing no empty tokens. -/
def pySplit (s : List Char) : List (List Char) := pySplitAux [] s

/-- Model of Python `str.strip()`: remove leading and trailing whitespace. -/
def pyStrip (s : List Char) : List Char :=
  (((s.dropWhile pyIsSpace).reverse).dropWhile pyIsSpace).reverse

/-- Value of a single ASCII hex digit, as accepted by Python `int(_, 16)`
(`0`-`9`, `a`-`f`, `A`-`F`); `none` for any other character. -/
def hexVal? (c : Char) : Option Nat :=
  if 48 ≤ c.toNat ∧ c.toNat ≤ 57 then some (c.toNat - 48)
  else if 97 ≤ c.toNat ∧ c.toNat ≤ 102 then some (c.toNat - 87)
  else if 65 ≤ c.toNat ∧ c.toNat ≤ 70 then some (c.toNat - 55)
  else none

/-- Digit part of a Python base-16 integer literal: a nonempty run of hex
digits in which single underscores may appear between digits (CPython's
grammar for `int(_, 16)` after sign and base prefix).  `acc` is the value of
the digits already consumed; called after at least one digit was read. -/
def hexDigitsAux : Nat → List Char → Option Nat
  | acc, [] => some acc
  | acc, c :: rest =>
    if c = '_' then
      match rest with
      | c' :: rest' =>
        match hexVal? c' with
        | some v => hexDigitsAux (16 * acc + v) rest'
        | none => none
      | [] => none
    else
      match hexVal? c with
      | some v => hexDigitsAux (16 * acc + v) rest
      | none => none

/-- Nonempty underscore-separated hex digit run, starting from nothing. -/
def hexDigits? : List Char → Option Nat
  | [] => none
  | c :: rest =>
    match hexVal? c with
    | some v => hexDigitsAux v rest
    | none => none

/-- Optional sign of a Python integer literal; returns the sign factor and
the remaining characters. -/
def pySign (cs : List Char) : Int × List Char :=
  match cs with
  | [] => (1, [])
  | c :: r => if c = '+' then (1, r) else if c = '-' then (-1, r) else (1, cs)

/-- Strip an optional `0x`/`0X` base prefix (with Python's optional single
underscore right after it). -/
def skipUnderscore (cs : List Char) : List Char :=
  match cs with
  | [] => []
  | c :: r => if c = '_' then r else cs

/-- Strip an optional `0x`/`0X` base prefix from the character list. -/
def stripHexBase (cs : List Char) : List Char :=
  match cs with
  | c0 :: c1 :: r => if c0 = '0' ∧ (c1 = 'x' ∨ c1 = 'X') then skipUnderscore r else cs
  | _ => cs

/-- Model of Python `int(token, 16)` on a whitespace-free token: optional
sign, optional `0x`/`0X` prefix, then a nonempty hex digit run with single
underscores allowed between digits.  `none` models a raised `ValueError`.
(The tokens handled by the source are ASCII, so only ASCII digits are
modelled.) -/
def pyIntHex? (cs : List Char) : Option Int :=
  let sr := pySign cs
  (hexDigits? (stripHexBase sr.2)).map (fun n => sr.1 * (n : Int))

/-- One iteration of the loop body of `parse_signature` (source lines
114-118): a token equal to `"?"` or `"??"` contributes `0`, any other token
is passed to `int(token, 16)`. -/
def parseToken (t : List Char) : Except String Int :=
  if t = ['?'] ∨ t = ['?', '?'] then .ok 0
  else match pyIntHex? t with
    | some v => .ok v
    | none => .error "ValueError: invalid literal for int with base 16"

/-- The whole loop of `parse_signature`: tokens are converted in order and
the first failing token aborts the run (models the raised `ValueError`). -/
def parseTokens : List (List Char) → Except String (List Int)
  | [] => .ok []
  | t :: ts => do
    let v ← parseToken t
    let vs ← parseTokens ts
    pure (v :: vs)

/-- Token list to byte string: the loop of `parse_signature` followed by the
final `bytes(byte_array)` call, which raises `ValueError` unless every
element is in `range(0, 256)`. -/
def sigOfTokens (ts : List (List Char)) : Except String (List Nat) := do
  let vs ← parseTokens ts
  if ∀ v ∈ vs, 0 ≤ v ∧ v < 256 then pure (vs.map Int.toNat)
  else .error "ValueError: bytes must be in range"

/-- Model of `parse_signature` (source lines 102-119): split the signature
string on whitespace, convert each token, and build the final `bytes`
object. -/
def parse_signature (s : List Char) : Except String (List Nat) :=
  sigOfTokens (pySplit s)

example : parse_signature "DE AD ? 10".data = .ok [222, 173, 0, 16] := by decide
example : parse_signature "F".data = .ok [15] := by decide
example : parse_signature "GG".data =
    .error "ValueError: invalid literal for int with base 16" := by decide
example : parse_signature "DEAD".data = .error "ValueError: bytes must be in range" := by decide
example : parse_signature "?? 0x10 1_0".data = .ok [0, 16, 16] := by decide

/-! ### Serialization (source lines 174-185) -/

/-- The four little-endian bytes of a value below `2^32`. -/
def bytesLE4 (n : Nat) : List Nat :=
  [n % 256, n / 256 % 256, n / 256 ^ 2 % 256, n / 256 ^ 3 % 256]

/-- Model of Python `n.to_bytes(4, byteorder="little", signed=False)` on a
nonnegative integer: `none` models the `OverflowError` raised when the value
does not fit in four bytes. -/
def toBytesLE4 (n : Nat) : Option (List Nat) :=
  if n < 2 ^ 32 then some (bytesLE4 n) else none

/-- Model of Python `i.to_bytes(4, byteorder="little", signed=False)` on an
arbitrary integer: a negative value raises `OverflowError` (Python refuses
to convert a negative int with `signed=False`), modelled as `none`. -/
def toBytesLE4Int (i : Int) : Option (List Nat) :=
  if 0 ≤ i ∧ i < 2 ^ 32 then some (bytesLE4 i.toNat) else none

/-- Worker for `hexChars`; the first argument is fuel (one unit per digit),
so that the recursion is structural and evaluates inside the kernel. -/
def hexCharsAux : Nat → Nat → List Char
  | _, 0 => []
  | 0, _ + 1 => []
  | fuel + 1, n + 1 =>
    hexCharsAux fuel ((n + 1) / 16) ++
      [if (n + 1) % 16 < 10 then Char.ofNat (48 + (n + 1) % 16)
       else Char.ofNat (55 + (n + 1) % 16)]

/-- Uppercase hex digits of `n`, most significant first (empty for `0`). -/
def hexChars (n : Nat) : List Char := hexCharsAux n n

/-- Model of the Python format `f"\x7bbyte:02X\x7d"`: uppercase hex, padded
with zeros on the left to width two. -/
def fmt02X (n : Nat) : List Char :=
  let ds := if n = 0 then ['0'] else hexChars n
  if ds.length < 2 then '0' :: ds else ds

/-- Model of Python `" ".join(parts)`: the parts separated by single
spaces. -/
def pyJoinSpace : List (List Char) → List Char
  | [] => []
  | [t] => t
  | t :: ts => t ++ ' ' :: pyJoinSpace ts

/-- Model of `" ".join(f"\x7bbyte:02X\x7d" for byte in bs)` (source lines
179-182). -/
def hexJoin (bs : List Nat) : List Char :=
  pyJoinSpace (bs.map fmt02X)

/-- Model of Python string repetition `s * n`. -/
def pyRepeat (n : Nat) (s : List Char) : List Char :=
  (List.replicate n s).flatten

/-- The replacement pattern of source line 185,
`f"\x7bwidth\x7d \x7bheight\x7d " * 15`, where `width` and `height` are the
space-joined hex renderings of the two little-endian byte quadruples. -/
def replacePatternOf (w h : Nat) : List Char :=
  pyRepeat 15 (hexJoin (bytesLE4 w) ++ ' ' :: (hexJoin (bytesLE4 h) ++ [' ']))

example : hexJoin (bytesLE4 17280) = "80 43 00 00".data := by decide
example : fmt02X 0 = ['0', '0'] := by decide
example : fmt02X 255 = ['F', 'F'] := by decide

/-! ### The resolution arithmetic of `patch` (source lines 167-185) -/

/-- The effective resolution (source lines 172-173): a configured width or
height of `0` substitutes the desktop resolution for both. -/
def effRes (cfgW cfgH dw dh : Nat) : Nat × Nat :=
  if cfgW = 0 ∨ cfgH = 0 then (dw, dh) else (cfgW, cfgH)

/-- The horizontal centering offset of source line 174,
`int((desktop_width - width) / 2)`.  Python's `int()` on a float truncates
toward zero, so this is the T-division `Int.tdiv`; the float division `/ 2`
is exact whenever the difference is below `2^53` in magnitude, which covers
every 32-bit resolution. -/
def offsetInt (dw w : Nat) : Int :=
  Int.tdiv ((dw : Int) - (w : Int)) 2

/-- The serialized offset bytes of source line 178 applied to the computed
offset of line 174. -/
def offsetBytes (dw w : Nat) : Option (List Nat) :=
  toBytesLE4Int (offsetInt dw w)

/-- The values `patch` derives from the configuration before editing any
file (source lines 167-185).  `none` models an uncaught `OverflowError`
raised by one of the `to_bytes` calls. -/
structure PatchData where
  widthStr : List Char
  heightStr : List Char
  offsetStr : List Char
  specialStr : List Char
  replacePattern : List Char
deriving DecidableEq, Repr

/-- The pure computation of `patch` (source lines 167-185): substitute the
desktop resolution on a zero sentinel, compute offset and special value,
serialize all four as little-endian bytes rendered as uppercase hex text,
and build the replacement pattern by repeating the width/height pair 15
times. -/
def patchCompute (cfgW cfgH dw dh : Nat) : Option PatchData :=
  (toBytesLE4 ((effRes cfgW cfgH dw dh).2 <<< 4)).bind fun sB =>
  (toBytesLE4 (effRes cfgW cfgH dw dh).1).bind fun wB =>
  (toBytesLE4 (effRes cfgW cfgH dw dh).2).bind fun hB =>
  (toBytesLE4Int (offsetInt dw (effRes cfgW cfgH dw dh).1)).bind fun oB =>
  some { widthStr := hexJoin wB
         heightStr := hexJoin hB
         offsetStr := hexJoin oB
         specialStr := hexJoin sB
         replacePattern := pyRepeat 15 (hexJoin wB ++ ' ' :: (hexJoin hB ++ [' '])) }

/-- The default search pattern of source line 184: the 15-slot resolution
table of the original binaries (two 4-byte integers per slot). -/
def defaultSearchPattern : List Char :=
  ("20 03 00 00 58 02 00 00 00 04 00 00 00 03 00 00 00 05 00 00 D0 02 00 00 " ++
   "00 05 00 00 20 03 00 00 00 05 00 00 00 04 00 00 50 05 00 00 00 03 00 00 " ++
   "A0 05 00 00 84 03 00 00 40 06 00 00 84 03 00 00 40 06 00 00 B0 04 00 00 " ++
   "90 06 00 00 1A 04 00 00 80 07 00 00 38 04 00 00 80 07 00 00 B0 04 00 00 " ++
   "00 0A 00 00 A0 05 00 00 00 0A 00 00 40 06 00 00 00 0F 00 00 70 08 00 00").data

/-! ### The binary patch engine `edit_dll` (source lines 121-155) -/

/-- Model of Python `data.find(sp1, 0)` on byte strings: the offset of the
first (lowest) occurrence of `sub` in `data`, `none` when there is none
(Python returns `-1`).  An empty `sub` is found at offset `0`. -/
def findSub (sub : List Nat) : List Nat → Option Nat
  | [] => if sub.isEmpty then some 0 else none
  | d :: rest =>
    if sub.isPrefixOf (d :: rest) then some 0
    else (findSub sub rest).map (· + 1)

/-- Model of `file.seek(offset)` followed by `file.write(rp)` on a file with
contents `c`: the `rp.length` bytes starting at `off` are overwritten.
(`edit_dll` only writes at an offset returned by `find`, which lies within
the file.) -/
def listWrite (c : List Nat) (off : Nat) (rp : List Nat) : List Nat :=
  c.take off ++ rp ++ c.drop (off + rp.length)

/-- Outcome of one `edit_dll` run on a file it could open.  `found` is the
match offset reported on success (`none` models the "Cannot find" branch
that returns `None`); `newContent` is the file's byte content afterwards;
`record` is the text written to the side-effect record file `patch.txt`
(`none` when nothing was written). -/
structure EditResult where
  found : Option Nat
  newContent : List Nat
  record : Option (List Char)
deriving DecidableEq, Repr

/-- Model of `edit_dll` (source lines 121-155) on a file whose bytes are
`content`: strip the search pattern, parse both patterns (a `ValueError`
from `parse_signature` is raised before the `try` block and propagates to
the caller, modelled by `Except.error`), search for the first occurrence,
and either report failure leaving the file untouched or overwrite the match
and record the replacement pattern in `patch.txt`. -/
def edit_dll (content : List Nat) (searchPat replacePat : List Char) :
    Except String EditResult := do
  let sp1 ← parse_signature (pyStrip searchPat)
  let rp ← parse_signature replacePat
  match findSub sp1 content with
  | none => pure ⟨none, content, none⟩
  | some off => pure ⟨some off, listWrite content off rp, some replacePat⟩

/-- `sub` occurs in `data` at offset `off`. -/
def matchesAt (sub data : List Nat) (off : Nat) : Prop :=
  (data.drop off).take sub.length = sub

instance (sub data : List Nat) (off : Nat) : Decidable (matchesAt sub data off) := by
  unfold matchesAt; infer_instance

example : edit_dll [1, 0xAB, 0xCD, 2] " AB CD ".data "DE AD".data =
    .ok ⟨some 1, [1, 0xDE, 0xAD, 2], some "DE AD".data⟩ := by decide
example : edit_dll [1, 2, 3] "AB CD".data "DE AD".data = .ok ⟨none, [1, 2, 3], none⟩ := by decide
example : (parse_signature defaultSearchPattern).map List.length = .ok 120 := by decide

/-! ### Properties of `findSub` and `listWrite` -/

theorem isPrefixOf_eq_take (sub l : List Nat) :
    sub.isPrefixOf l = true ↔ l.take sub.length = sub := by
  rw [List.isPrefixOf_iff_prefix, List.prefix_iff_eq_take]
  exact eq_comm

theorem findSub_matchesAt {sub data : List Nat} {off : Nat}
    (h : findSub sub data = some off) : matchesAt sub data off := by
  induction data generalizing off with
  | nil =>
    unfold findSub at h
    by_cases he : sub.isEmpty
    · simp [he] at h
      subst h
      simp [List.isEmpty_iff] at he
      simp [matchesAt, he]
    · simp [he] at h
  | cons d rest ih =>
    unfold findSub at h
    by_cases hp : sub.isPrefixOf (d :: rest)
    · simp [hp] at h
      subst h
      unfold matchesAt
      simpa using (isPrefixOf_eq_take sub (d :: rest)).mp hp
    · simp [hp] at h
      obtain ⟨off', hoff', rfl⟩ := h
      have := ih hoff'
      unfold matchesAt at this ⊢
      simpa [List.drop_succ_cons] using this

theorem findSub_bound {sub data : List Nat} {off : Nat}
    (h : findSub sub data = some off) : off + sub.length ≤ data.length := by
  induction data generalizing off with
  | nil =>
    unfold findSub at h
    by_cases he : sub.isEmpty
    · simp [he] at h
      subst h
      simp [List.isEmpty_iff] at he
      simp [he]
    · simp [he] at h
  | cons d rest ih =>
    unfold findSub at h
    by_cases hp : sub.isPrefixOf (d :: rest)
    · simp [hp] at h
      subst h
      have htake := (isPrefixOf_eq_take sub (d :: rest)).mp hp
      have := congrArg List.length htake
      simp [List.length_take] at this
      simp
      omega
    · simp [hp] at h
      obtain ⟨off', hoff', rfl⟩ := h
      have := ih hoff'
      simp
      omega

theorem findSub_min {sub data : List Nat} {off : Nat}
    (h : findSub sub data = some off) :
    ∀ j < off, ¬ matchesAt sub data j := by
  induction data generalizing off with
  | nil =>
    unfold findSub at h
    by_cases he : sub.isEmpty
    · simp [he] at h; omega
    · simp [he] at h
  | cons d rest ih =>
    unfold findSub at h
    by_cases hp : sub.isPrefixOf (d :: rest)
    · simp [hp] at h; omega
    · simp [hp] at h
      obtain ⟨off', hoff', rfl⟩ := h
      intro j hj
      match j with
      | 0 =>
        intro hm
        unfold matchesAt at hm
        simp at hm
        exact hp ((isPrefixOf_eq_take sub (d :: rest)).mpr hm)
      | j' + 1 =>
        intro hm
        unfold matchesAt at hm
        rw [List.drop_succ_cons] at hm
        exact ih hoff' j' (by omega) hm

theorem findSub_none {sub data : List Nat}
    (h : findSub sub data = none) : ∀ j, ¬ matchesAt sub data j := by
  induction data with
  | nil =>
    unfold findSub at h
    by_cases he : sub.isEmpty
    · simp [he] at h
    · intro j hm
      unfold matchesAt at hm
      simp at hm
      simp [List.isEmpty_iff] at he
      exact he hm
  | cons d rest ih =>
    unfold findSub at h
    by_cases hp : sub.isPrefixOf (d :: rest)
    · simp [hp] at h
    · simp [hp] at h
      intro j
      match j with
      | 0 =>
        intro hm
        unfold matchesAt at hm
        simp at hm
        exact hp ((isPrefixOf_eq_take sub (d :: rest)).mpr hm)
      | j' + 1 =>
        intro hm
        unfold matchesAt at hm
        rw [List.drop_succ_cons] at hm
        exact ih h j' hm

theorem findSub_isSome_of_matchesAt {sub data : List Nat} {i : Nat}
    (hm : matchesAt sub data i) : ∃ off, findSub sub data = some off := by
  cases h : findSub sub data with
  | none => exact absurd hm (findSub_none h i)
  | some off => exact ⟨off, rfl⟩

/-- Writing back the bytes that are already there changes nothing. -/
theorem listWrite_self {sub data : List Nat} {off : Nat}
    (hm : matchesAt sub data off) : listWrite data off sub = data := by
  unfold listWrite
  unfold matchesAt at hm
  have h1 : (data.drop off).drop sub.length = data.drop (off + sub.length) := by
    rw [List.drop_drop, Nat.add_comm]
  calc data.take off ++ sub ++ data.drop (off + sub.length)
      = data.take off ++ ((data.drop off).take sub.length ++ (data.drop off).drop sub.length) := by
        rw [hm, h1, List.append_assoc]
    _ = data.take off ++ data.drop off := by rw [List.take_append_drop]
    _ = data := List.take_append_drop off data

theorem listWrite_take {c rp : List Nat} {off : Nat} (hoff : off ≤ c.length) :
    (listWrite c off rp).take off = c.take off := by
  unfold listWrite
  rw [List.append_assoc, List.take_left' (by simp [List.length_take]; omega)]

theorem listWrite_middle {c rp : List Nat} {off : Nat} (hoff : off ≤ c.length) :
    ((listWrite c off rp).drop off).take rp.length = rp := by
  unfold listWrite
  rw [List.append_assoc, List.drop_left' (by simp [List.length_take]; omega),
    List.take_left' rfl]

theorem listWrite_drop {c rp : List Nat} {off : Nat} (hoff : off ≤ c.length) :
    (listWrite c off rp).drop (off + rp.length) = c.drop (off + rp.length) := by
  unfold listWrite
  rw [@List.drop_left' _ (c.take off ++ rp) (c.drop (off + rp.length)) _
    (by simp [List.length_take]; omega)]

theorem listWrite_length {c rp : List Nat} {off : Nat}
    (h : off + rp.length ≤ c.length) :
    (listWrite c off rp).length = c.length := by
  unfold listWrite
  simp [List.length_append, List.length_take, List.length_drop]
  omega

/-! ### Properties of `pySplit` and `pyStrip` -/

theorem pySplitAux_all_space {w : List Char} (hw : ∀ c ∈ w, pyIsSpace c = true) :
    ∀ acc, pySplitAux acc w = if acc = [] then [] else [acc.reverse] := by
  induction w with
  | nil => intro acc; rfl
  | cons c cs ih =>
    intro acc
    have hc : pyIsSpace c = true := hw c (by simp)
    have ih' := ih (fun d hd => hw d (by simp [hd]))
    by_cases ha : acc = []
    · simp [pySplitAux, hc, ha, ih' []]
    · simp [pySplitAux, hc, ha, ih' []]

theorem pySplitAux_append_space {w : List Char} (hw : ∀ c ∈ w, pyIsSpace c = true) :
    ∀ u acc, pySplitAux acc (u ++ w) = pySplitAux acc u := by
  intro u
  induction u with
  | nil =>
    intro acc
    rw [List.nil_append, pySplitAux_all_space hw acc]
    rfl
  | cons c cs ih =>
    intro acc
    by_cases hc : pyIsSpace c
    · by_cases ha : acc = []
      · simp [pySplitAux, hc, ha, ih []]
      · simp [pySplitAux, hc, ha, ih []]
    · simp [pySplitAux, hc, ih (c :: acc)]

theorem pySplitAux_dropWhile_space (s : List Char) :
    pySplitAux [] (s.dropWhile pyIsSpace) = pySplitAux [] s := by
  induction s with
  | nil => rfl
  | cons c cs ih =>
    by_cases hc : pyIsSpace c
    · rw [List.dropWhile_cons_of_pos hc]
      rw [ih]
      simp [pySplitAux, hc]
    · rw [List.dropWhile_cons_of_neg hc]

/-- Stripping whitespace from both ends does not change the token list:
`parse_signature(p.strip())` and `parse_signature(p)` agree. -/
theorem pySplit_pyStrip (s : List Char) : pySplit (pyStrip s) = pySplit s := by
  unfold pySplit pyStrip
  set t := s.dropWhile pyIsSpace with ht
  have hdecomp : t = (t.reverse.dropWhile pyIsSpace).reverse ++
      (t.reverse.takeWhile pyIsSpace).reverse := by
    conv_lhs => rw [← List.reverse_reverse t]
    rw [← List.reverse_append, List.takeWhile_append_dropWhile]
  have hw : ∀ c ∈ (t.reverse.takeWhile pyIsSpace).reverse, pyIsSpace c = true := by
    intro c hc
    rw [List.mem_reverse] at hc
    exact List.mem_takeWhile_imp hc
  calc pySplitAux [] (t.reverse.dropWhile pyIsSpace).reverse
      = pySplitAux [] ((t.reverse.dropWhile pyIsSpace).reverse ++
          (t.reverse.takeWhile pyIsSpace).reverse) :=
        (pySplitAux_append_space hw _ []).symm
    _ = pySplitAux [] t := by rw [← hdecomp]
    _ = pySplitAux [] s := pySplitAux_dropWhile_space s

theorem parse_signature_pyStrip (s : List Char) :
    parse_signature (pyStrip s) = parse_signature s := by
  unfold parse_signature
  rw [pySplit_pyStrip]

/-! ### Recovering tokens from a space-terminated concatenation -/

/-- `flattenTok toks` is each token followed by one space, concatenated:
the shape of the replacement pattern `"w h " * 15`. -/
def flattenTok (toks : List (List Char)) : List Char :=
  (toks.map (· ++ [' '])).flatten

theorem pySplitAux_token {suf : List Char} (hs : ∀ c ∈ suf, pyIsSpace c = false) :
    ∀ acc R, (acc = [] → suf ≠ []) →
      pySplitAux acc (suf ++ ' ' :: R) = (acc.reverse ++ suf) :: pySplitAux [] R := by
  induction suf with
  | nil =>
    intro acc R hne
    have ha : acc ≠ [] := fun h => (hne h) rfl
    simp [pySplitAux, ha, show pyIsSpace ' ' = true from rfl]
  | cons c cs ih =>
    intro acc R _
    have hc : pyIsSpace c = false := hs c (by simp)
    have ih' := ih (fun d hd => hs d (by simp [hd])) (c :: acc) R (by simp)
    simp only [List.cons_append, pySplitAux, hc, Bool.false_eq_true, if_false, List.append_eq]
    rw [ih']
    simp

theorem pySplit_flattenTok {toks : List (List Char)}
    (h : ∀ t ∈ toks, t ≠ [] ∧ ∀ c ∈ t, pyIsSpace c = false) :
    pySplit (flattenTok toks) = toks := by
  induction toks with
  | nil => rfl
  | cons t rest ih =>
    have ht := h t (by simp)
    have hflat : flattenTok (t :: rest) = t ++ ' ' :: flattenTok rest := by
      simp [flattenTok, List.append_assoc]
    unfold pySplit
    rw [hflat, pySplitAux_token ht.2 [] (flattenTok rest) (fun _ => ht.1)]
    rw [List.reverse_nil, List.nil_append]
    exact congrArg (t :: ·) (ih (fun t' h' => h t' (by simp [h'])))

theorem flattenTok_append (xs ys : List (List Char)) :
    flattenTok (xs ++ ys) = flattenTok xs ++ flattenTok ys := by
  simp [flattenTok]

theorem pyJoinSpace_append_space {toks : List (List Char)} (h : toks ≠ []) :
    pyJoinSpace toks ++ [' '] = flattenTok toks := by
  induction toks with
  | nil => exact absurd rfl h
  | cons t rest ih =>
    cases rest with
    | nil => simp [pyJoinSpace, flattenTok]
    | cons t' rest' =>
      have h2 := ih (by simp)
      calc pyJoinSpace (t :: t' :: rest') ++ [' ']
          = t ++ ' ' :: (pyJoinSpace (t' :: rest') ++ [' ']) := by
            rw [show pyJoinSpace (t :: t' :: rest') =
              t ++ ' ' :: pyJoinSpace (t' :: rest') from rfl]
            simp
        _ = t ++ ' ' :: flattenTok (t' :: rest') := by rw [h2]
        _ = flattenTok (t :: t' :: rest') := by simp [flattenTok]

theorem pyRepeat_flattenTok (n : Nat) (ts : List (List Char)) :
    pyRepeat n (flattenTok ts) = flattenTok (List.replicate n ts).flatten := by
  induction n with
  | zero => rfl
  | succ m ih =>
    have h1 : pyRepeat (m + 1) (flattenTok ts) =
        flattenTok ts ++ pyRepeat m (flattenTok ts) := by
      simp [pyRepeat, List.replicate_succ]
    have h2 : (List.replicate (m + 1) ts).flatten = ts ++ (List.replicate m ts).flatten := by
      simp [List.replicate_succ]
    rw [h1, h2, flattenTok_append, ih]

theorem flatten_replicate_map {α β : Type} (f : α → β) (n : Nat) (l : List α) :
    (List.replicate n (l.map f)).flatten = ((List.replicate n l).flatten).map f := by
  induction n with
  | zero => rfl
  | succ m ih =>
    rw [List.replicate_succ, List.flatten_cons, ih, List.replicate_succ,
      List.flatten_cons, List.map_append]

theorem length_flatten_replicate {α : Type} (n : Nat) (l : List α) :
    ((List.replicate n l).flatten).length = n * l.length := by
  induction n with
  | zero => simp
  | succ m ih =>
    simp [List.replicate_succ, List.flatten_cons, ih]
    ring

/-! ### Properties of the token converter -/

theorem hexVal_lt {c : Char} {v : Nat} (h : hexVal? c = some v) : v < 16 := by
  unfold hexVal? at h
  split at h
  · injection h with h; omega
  · split at h
    · injection h with h; omega
    · split at h
      · injection h with h; omega
      · exact Option.noConfusion h

theorem hexVal_ne {c : Char} {v : Nat} (h : hexVal? c = some v) {d : Char}
    (hd : hexVal? d = none) : c ≠ d := by
  intro he
  rw [he, hd] at h
  exact Option.noConfusion h

/-- A pair of hex digits goes through the `int(token, 16)` branch of the
loop and yields the expected byte value. -/
theorem parseToken_hex_pair {c₁ c₂ : Char} {v₁ v₂ : Nat}
    (h₁ : hexVal? c₁ = some v₁) (h₂ : hexVal? c₂ = some v₂) :
    parseToken [c₁, c₂] = .ok (Int.ofNat (16 * v₁ + v₂)) := by
  have hq : c₁ ≠ '?' := hexVal_ne h₁ (by decide)
  have hp : c₁ ≠ '+' := hexVal_ne h₁ (by decide)
  have hm : c₁ ≠ '-' := hexVal_ne h₁ (by decide)
  have hx : c₂ ≠ 'x' := hexVal_ne h₂ (by decide)
  have hX : c₂ ≠ 'X' := hexVal_ne h₂ (by decide)
  have hu : c₂ ≠ '_' := hexVal_ne h₂ (by decide)
  have hsign : pySign [c₁, c₂] = (1, [c₁, c₂]) := by simp [pySign, hp, hm]
  have hbase : stripHexBase [c₁, c₂] = [c₁, c₂] := by simp [stripHexBase, hx, hX]
  have hdig : hexDigits? [c₁, c₂] = some (16 * v₁ + v₂) := by
    simp only [hexDigits?, hexDigitsAux, h₁, h₂, hu]
    simp
  have hint : pyIntHex? [c₁, c₂] = some (Int.ofNat (16 * v₁ + v₂)) := by
    simp [pyIntHex?, hsign, hbase, hdig]
  unfold parseToken
  rw [if_neg (by simp [hq]), hint]

/-- The two-character rendering of a byte is a parseable, whitespace-free
token that round-trips to the byte value. -/
theorem fmt02X_token : ∀ b, b < 256 →
    fmt02X b ≠ [] ∧ (∀ c ∈ fmt02X b, pyIsSpace c = false) ∧
      parseToken (fmt02X b) = .ok (Int.ofNat b) := by decide

theorem parseTokens_fmt02X {bs : List Nat} (h : ∀ b ∈ bs, b < 256) :
    parseTokens (bs.map fmt02X) = .ok (bs.map Int.ofNat) := by
  induction bs with
  | nil => rfl
  | cons b bs ih =>
    simp only [List.map_cons, parseTokens]
    rw [(fmt02X_token b (h b (by simp))).2.2, ih (fun x hx => h x (by simp [hx]))]
    rfl

theorem bytesLE4_lt (n : Nat) : ∀ b ∈ bytesLE4 n, b < 256 := by
  simp [bytesLE4]
  omega

theorem parse_signature_flattenTok {bs : List Nat} (h : ∀ b ∈ bs, b < 256) :
    parse_signature (flattenTok (bs.map fmt02X)) = .ok bs := by
  unfold parse_signature
  rw [pySplit_flattenTok (by
    intro t ht
    obtain ⟨b, hb, rfl⟩ := List.mem_map.mp ht
    exact ⟨(fmt02X_token b (h b hb)).1, (fmt02X_token b (h b hb)).2.1⟩)]
  unfold sigOfTokens
  rw [parseTokens_fmt02X h]
  have hrange : ∀ v ∈ bs.map Int.ofNat, 0 ≤ v ∧ v < 256 := by
    intro v hv
    simp only [List.mem_map] at hv
    obtain ⟨b, hb, hbv⟩ := hv
    have hblt := h b hb
    subst hbv
    refine ⟨Int.ofNat_nonneg b, ?_⟩
    rw [Int.ofNat_eq_natCast]
    exact_mod_cast hblt
  rw [except_bind_ok, if_pos hrange]
  have hmap : (bs.map Int.ofNat).map Int.toNat = bs := by
    rw [List.map_map]
    have hcomp : (Int.toNat ∘ Int.ofNat) = id := by
      funext x
      rfl
    rw [hcomp, List.map_id]
  rw [show (pure ((bs.map Int.ofNat).map Int.toNat) : Except String (List Nat)) =
    .ok ((bs.map Int.ofNat).map Int.toNat) from rfl, hmap]

/-! ### The replacement pattern parses back to its 120 bytes -/

theorem replacePatternOf_eq (w h : Nat) :
    replacePatternOf w h =
      flattenTok (((List.replicate 15 (bytesLE4 w ++ bytesLE4 h)).flatten).map fmt02X) := by
  unfold replacePatternOf
  have hw : hexJoin (bytesLE4 w) ++ [' '] = flattenTok ((bytesLE4 w).map fmt02X) :=
    pyJoinSpace_append_space (by simp [bytesLE4])
  have hh : hexJoin (bytesLE4 h) ++ [' '] = flattenTok ((bytesLE4 h).map fmt02X) :=
    pyJoinSpace_append_space (by simp [bytesLE4])
  have hunit : hexJoin (bytesLE4 w) ++ ' ' :: (hexJoin (bytesLE4 h) ++ [' ']) =
      flattenTok ((bytesLE4 w ++ bytesLE4 h).map fmt02X) := by
    rw [List.map_append, flattenTok_append, ← hw, ← hh]
    simp
  rw [hunit, pyRepeat_flattenTok, flatten_replicate_map]

theorem parse_replacePatternOf (w h : Nat) :
    parse_signature (replacePatternOf w h) =
      .ok (List.replicate 15 (bytesLE4 w ++ bytesLE4 h)).flatten := by
  rw [replacePatternOf_eq]
  apply parse_signature_flattenTok
  intro b hb
  rw [List.mem_flatten] at hb
  obtain ⟨chunk, hchunk, hbc⟩ := hb
  rw [List.eq_of_mem_replicate hchunk] at hbc
  rcases List.mem_append.mp hbc with h' | h'
  · exact bytesLE4_lt w b h'
  · exact bytesLE4_lt h b h'

/-! ### Spec-side token model (follows the spec's words, for comparison) -/

/-- Token value as described by the spec: a token is either a wildcard `?`
or `??` (value 0) or exactly two hex digits (its byte value); anything else
is invalid.  This follows the spec's words, not the code. -/
def specTokenValue? (t : List Char) : Option Nat :=
  if t = ['?'] ∨ t = ['?', '?'] then some 0
  else
    match t with
    | [c₁, c₂] =>
      match hexVal? c₁, hexVal? c₂ with
      | some v₁, some v₂ => some (16 * v₁ + v₂)
      | _, _ => none
    | _ => none

/-- Spec-side conversion of a whole token list. -/
def specTokens? : List (List Char) → Option (List Nat)
  | [] => some []
  | t :: ts =>
    match specTokenValue? t, specTokens? ts with
    | some v, some vs => some (v :: vs)
    | _, _ => none

theorem parseToken_of_spec {t : List Char} {v : Nat}
    (h : specTokenValue? t = some v) :
    parseToken t = .ok (Int.ofNat v) ∧ v < 256 := by
  unfold specTokenValue? at h
  by_cases hw : t = ['?'] ∨ t = ['?', '?']
  · rw [if_pos hw] at h
    injection h with h
    subst h
    refine ⟨?_, by omega⟩
    unfold parseToken
    rw [if_pos hw]
    rfl
  · rw [if_neg hw] at h
    rcases t with _ | ⟨c₁, _ | ⟨c₂, _ | ⟨c₃, t⟩⟩⟩
    · simp at h
    · simp at h
    · cases h₁ : hexVal? c₁ with
      | none => simp [h₁] at h
      | some v₁ =>
        cases h₂ : hexVal? c₂ with
        | none => simp [h₁, h₂] at h
        | some v₂ =>
          simp [h₁, h₂] at h
          subst h
          have hb₁ := hexVal_lt h₁
          have hb₂ := hexVal_lt h₂
          exact ⟨parseToken_hex_pair h₁ h₂, by omega⟩
    · simp at h

theorem specTokens_parseTokens {ts : List (List Char)} {vs : List Nat}
    (h : specTokens? ts = some vs) :
    parseTokens ts = .ok (vs.map Int.ofNat) ∧ ∀ v ∈ vs, v < 256 := by
  induction ts generalizing vs with
  | nil =>
    unfold specTokens? at h
    injection h with h
    subst h
    exact ⟨rfl, by simp⟩
  | cons t ts ih =>
    unfold specTokens? at h
    cases hv : specTokenValue? t with
    | none => rw [hv] at h; simp at h
    | some v =>
      cases hvs : specTokens? ts with
      | none => rw [hv, hvs] at h; simp at h
      | some vs' =>
        rw [hv, hvs] at h
        injection h with h
        subst h
        obtain ⟨hts, hbs⟩ := ih hvs
        obtain ⟨htok, hbv⟩ := parseToken_of_spec hv
        constructor
        · simp only [parseTokens]
          rw [htok, except_bind_ok, hts, except_bind_ok]
          rfl
        · intro x hx
          rcases List.mem_cons.mp hx with h' | h'
          · subst h'; exact hbv
          · exact hbs x h'

/-- Mapping to `Int` and back to `Nat` is the identity on byte lists. -/
theorem map_ofNat_toNat (bs : List Nat) : (bs.map Int.ofNat).map Int.toNat = bs := by
  rw [List.map_map]
  have hcomp : (Int.toNat ∘ Int.ofNat) = id := by
    funext x
    rfl
  rw [hcomp, List.map_id]

theorem ofNat_range {bs : List Nat} (h : ∀ b ∈ bs, b < 256) :
    ∀ v ∈ bs.map Int.ofNat, 0 ≤ v ∧ v < 256 := by
  intro v hv
  simp only [List.mem_map] at hv
  obtain ⟨b, hb, hbv⟩ := hv
  have hblt := h b hb
  subst hbv
  refine ⟨Int.ofNat_nonneg b, ?_⟩
  rw [Int.ofNat_eq_natCast]
  exact_mod_cast hblt

/-! ### Exact characterization of signature-parsing success -/

/-- Binding a failed `Except` computation keeps the error. -/
theorem except_bind_error {ε α β : Type} (e : ε) (f : α → Except ε β) :
    (Except.error e : Except ε α) >>= f = .error e := rfl

/-- A token the parsing loop and the final `bytes(...)` call both accept: a
wildcard, or a string Python `int(_, 16)` parses to a value in `0..255`. -/
def okTokenSpec (t : List Char) : Prop :=
  t = ['?'] ∨ t = ['?', '?'] ∨ ∃ v : Int, pyIntHex? t = some v ∧ 0 ≤ v ∧ v < 256

theorem parseToken_wildcard_eq {t : List Char} (hw : t = ['?'] ∨ t = ['?', '?']) :
    parseToken t = .ok 0 := by
  unfold parseToken
  rw [if_pos hw]

theorem parseToken_intHex_some {t : List Char} {v : Int}
    (hne : ¬(t = ['?'] ∨ t = ['?', '?'])) (hi : pyIntHex? t = some v) :
    parseToken t = .ok v := by
  unfold parseToken
  rw [if_neg hne, hi]

theorem parseToken_intHex_none {t : List Char}
    (hne : ¬(t = ['?'] ∨ t = ['?', '?'])) (hi : pyIntHex? t = none) :
    parseToken t = .error "ValueError: invalid literal for int with base 16" := by
  unfold parseToken
  rw [if_neg hne, hi]

theorem parseToken_range_iff (t : List Char) :
    (∃ v, parseToken t = .ok v ∧ 0 ≤ v ∧ v < 256) ↔ okTokenSpec t := by
  unfold okTokenSpec
  by_cases hw : t = ['?'] ∨ t = ['?', '?']
  · rw [parseToken_wildcard_eq hw]
    constructor
    · intro _
      rcases hw with h' | h'
      · exact Or.inl h'
      · exact Or.inr (Or.inl h')
    · intro _
      exact ⟨0, rfl, by omega⟩
  · have hsplit := hw
    push_neg at hsplit
    cases hi : pyIntHex? t with
    | none =>
      rw [parseToken_intHex_none hw hi]
      constructor
      · rintro ⟨v, hv, _⟩
        exact Except.noConfusion hv
      · rintro (h' | h' | ⟨v, hv, _⟩)
        · exact absurd h' hsplit.1
        · exact absurd h' hsplit.2
        · exact Option.noConfusion hv
    | some v =>
      rw [parseToken_intHex_some hw hi]
      constructor
      · rintro ⟨u, hu, hr⟩
        injection hu with hu
        subst hu
        exact Or.inr (Or.inr ⟨v, rfl, hr⟩)
      · rintro (h' | h' | ⟨u, hu, hr⟩)
        · exact absurd h' hsplit.1
        · exact absurd h' hsplit.2
        · injection hu with hu
          subst hu
          exact ⟨v, rfl, hr⟩

theorem sigOfTokens_cons_errTok {t : List Char} {ts : List (List Char)} {e : String}
    (ht : parseToken t = .error e) : sigOfTokens (t :: ts) = .error e := by
  unfold sigOfTokens
  simp only [parseTokens]
  rw [ht, except_bind_error, except_bind_error]

theorem sigOfTokens_cons_errRest {t : List Char} {ts : List (List Char)} {v : Int} {e : String}
    (ht : parseToken t = .ok v) (hts : parseTokens ts = .error e) :
    sigOfTokens (t :: ts) = .error e := by
  unfold sigOfTokens
  simp only [parseTokens]
  rw [ht, except_bind_ok, hts, except_bind_error, except_bind_error]

theorem sigOfTokens_cons_ok {t : List Char} {ts : List (List Char)} {v : Int} {vs : List Int}
    (ht : parseToken t = .ok v) (hts : parseTokens ts = .ok vs) :
    sigOfTokens (t :: ts) =
      if ∀ x ∈ v :: vs, 0 ≤ x ∧ x < 256 then .ok ((v :: vs).map Int.toNat)
      else .error "ValueError: bytes must be in range" := by
  unfold sigOfTokens
  simp only [parseTokens]
  rw [ht, except_bind_ok, hts, except_bind_ok, pure_bind]
  rfl

theorem sigOfTokens_of_ok {ts : List (List Char)} {vs : List Int}
    (hts : parseTokens ts = .ok vs) :
    sigOfTokens ts =
      if ∀ x ∈ vs, 0 ≤ x ∧ x < 256 then .ok (vs.map Int.toNat)
      else .error "ValueError: bytes must be in range" := by
  unfold sigOfTokens
  rw [hts, except_bind_ok]
  rfl

theorem sigOfTokens_of_error {ts : List (List Char)} {e : String}
    (hts : parseTokens ts = .error e) : sigOfTokens ts = .error e := by
  unfold sigOfTokens
  rw [hts, except_bind_error]

theorem sigOfTokens_ok_iff (ts : List (List Char)) :
    (∃ bs, sigOfTokens ts = .ok bs) ↔ ∀ t ∈ ts, okTokenSpec t := by
  induction ts with
  | nil =>
    constructor
    · intro _ t ht
      exact absurd ht (List.not_mem_nil t)
    · intro _
      exact ⟨[], rfl⟩
  | cons t ts ih =>
    have hstep : (∃ bs, sigOfTokens (t :: ts) = .ok bs) ↔
        (∃ v, parseToken t = .ok v ∧ 0 ≤ v ∧ v < 256) ∧ ∃ bs, sigOfTokens ts = .ok bs := by
      cases ht : parseToken t with
      | error e =>
        rw [sigOfTokens_cons_errTok ht]
        constructor
        · rintro ⟨bs, hbs⟩
          exact Except.noConfusion hbs
        · rintro ⟨⟨v, hv, _⟩, _⟩
          exact Except.noConfusion hv
      | ok v =>
        cases hts : parseTokens ts with
        | error e =>
          rw [sigOfTokens_cons_errRest ht hts, sigOfTokens_of_error hts]
          constructor
          · rintro ⟨bs, hbs⟩
            exact Except.noConfusion hbs
          · rintro ⟨_, bs, hbs⟩
            exact Except.noConfusion hbs
        | ok vs =>
          rw [sigOfTokens_cons_ok ht hts, sigOfTokens_of_ok hts]
          by_cases hv : 0 ≤ v ∧ v < 256
          · by_cases hrest : ∀ x ∈ vs, 0 ≤ x ∧ x < 256
            · rw [if_pos (by
                intro x hx
                rcases List.mem_cons.mp hx with h' | h'
                · subst h'
                  exact hv
                · exact hrest x h'), if_pos hrest]
              constructor
              · intro _
                exact ⟨⟨v, rfl, hv⟩, _, rfl⟩
              · intro _
                exact ⟨_, rfl⟩
            · rw [if_neg (fun hall => hrest (fun x hx => hall x (by simp [hx]))),
                if_neg hrest]
              constructor
              · rintro ⟨bs, hbs⟩
                exact Except.noConfusion hbs
              · rintro ⟨_, bs, hbs⟩
                exact Except.noConfusion hbs
          · rw [if_neg (fun hall => hv (hall v (by simp)))]
            constructor
            · rintro ⟨bs, hbs⟩
              exact Except.noConfusion hbs
            · rintro ⟨⟨u, hu, hr⟩, _⟩
              injection hu with hu
              subst hu
              exact absurd hr hv
    rw [hstep, ih, parseToken_range_iff]
    constructor
    · rintro ⟨h1, h2⟩ x hx
      rcases List.mem_cons.mp hx with h' | h'
      · subst h'
        exact h1
      · exact h2 x h'
    · intro hall
      exact ⟨hall t (by simp), fun x hx => hall x (by simp [hx])⟩

/-! ### Inversion of `patchCompute` and `toBytes` -/

theorem toBytesLE4_some {n : Nat} {b : List Nat} (h : toBytesLE4 n = some b) :
    b = bytesLE4 n ∧ n < 2 ^ 32 := by
  unfold toBytesLE4 at h
  split at h
  · injection h with h
    exact ⟨h.symm, by assumption⟩
  · exact Option.noConfusion h

theorem toBytesLE4Int_some {i : Int} {b : List Nat} (h : toBytesLE4Int i = some b) :
    b = bytesLE4 i.toNat ∧ 0 ≤ i ∧ i < 2 ^ 32 := by
  unfold toBytesLE4Int at h
  split at h
  · injection h with h
    exact ⟨h.symm, by assumption⟩
  · exact Option.noConfusion h

theorem patchCompute_some {cfgW cfgH dw dh : Nat} {pd : PatchData}
    (hpd : patchCompute cfgW cfgH dw dh = some pd) :
    pd = { widthStr := hexJoin (bytesLE4 (effRes cfgW cfgH dw dh).1)
           heightStr := hexJoin (bytesLE4 (effRes cfgW cfgH dw dh).2)
           offsetStr := hexJoin (bytesLE4 (offsetInt dw (effRes cfgW cfgH dw dh).1).toNat)
           specialStr := hexJoin (bytesLE4 ((effRes cfgW cfgH dw dh).2 <<< 4))
           replacePattern :=
             replacePatternOf (effRes cfgW cfgH dw dh).1 (effRes cfgW cfgH dw dh).2 } := by
  unfold patchCompute at hpd
  cases h1 : toBytesLE4 ((effRes cfgW cfgH dw dh).2 <<< 4) with
  | none => rw [h1] at hpd; exact Option.noConfusion hpd
  | some sB =>
  rw [h1] at hpd
  rw [Option.some_bind] at hpd
  cases h2 : toBytesLE4 (effRes cfgW cfgH dw dh).1 with
  | none => rw [h2] at hpd; exact Option.noConfusion hpd
  | some wB =>
  rw [h2] at hpd
  rw [Option.some_bind] at hpd
  cases h3 : toBytesLE4 (effRes cfgW cfgH dw dh).2 with
  | none => rw [h3] at hpd; exact Option.noConfusion hpd
  | some hB =>
  rw [h3] at hpd
  rw [Option.some_bind] at hpd
  cases h4 : toBytesLE4Int (offsetInt dw (effRes cfgW cfgH dw dh).1) with
  | none => rw [h4] at hpd; exact Option.noConfusion hpd
  | some oB =>
  rw [h4] at hpd
  rw [Option.some_bind] at hpd
  injection hpd with hpd
  rw [← hpd, (toBytesLE4_some h1).1, (toBytesLE4_some h2).1, (toBytesLE4_some h3).1,
    (toBytesLE4Int_some h4).1]
  rfl

/-! ### Claims -/

/-- C1 (amended): for 32-bit desktop width `dw` and effective width `w`, the
serialized offset bytes are the little-endian encoding of
`floor((dw - w) / 2)` when `w ≤ dw`; for `w = dw + 1` Python truncation
toward zero yields offset `0` (bytes `00 00 00 00`); for `w ≥ dw + 2` the
offset is negative and `to_bytes(..., signed=False)` raises `OverflowError`
(no wraparound encoding is produced). -/
theorem c1_offset_serialization (dw w : Nat) (hdw : dw < 2 ^ 32) (hw : w < 2 ^ 32) :
    (w ≤ dw → offsetBytes dw w = some (bytesLE4 ((dw - w) / 2))) ∧
    (w = dw + 1 → offsetBytes dw w = some [0, 0, 0, 0]) ∧
    (dw + 2 ≤ w → offsetBytes dw w = none) := by
  refine ⟨?_, ?_, ?_⟩
  · intro hle
    unfold offsetBytes offsetInt toBytesLE4Int
    have hcast : (dw : Int) - (w : Int) = ((dw - w : Nat) : Int) := by omega
    rw [hcast]
    rw [show Int.tdiv ((dw - w : Nat) : Int) 2 = (((dw - w) / 2 : Nat) : Int) from rfl]
    rw [if_pos ⟨Int.ofNat_nonneg _, by
      have : (dw - w) / 2 < 2 ^ 32 := by omega
      exact_mod_cast this⟩]
    rfl
  · intro heq
    subst heq
    have hzero : offsetInt dw (dw + 1) = 0 := by
      unfold offsetInt
      rw [show (dw : Int) - ((dw + 1 : Nat) : Int) = -1 by push_cast; ring]
      decide
    unfold offsetBytes
    rw [hzero]
    decide
  · intro hge
    have hneg : offsetInt dw w < 0 := by
      unfold offsetInt
      have ha : (dw : Int) - (w : Int) ≤ -2 := by omega
      rcases hab : (dw : Int) - (w : Int) with m | m
      · rw [hab, Int.ofNat_eq_natCast] at ha
        omega
      · rw [hab, Int.negSucc_eq] at ha
        have hm : 1 ≤ m := by omega
        show -(((m + 1) / 2 : Nat) : Int) < 0
        omega
    unfold offsetBytes toBytesLE4Int
    rw [if_neg (fun hc => absurd hneg (by omega))]

/-- C1 counterexample: at the spec's own boundary example
`desktop_width = 1920`, `width = 2560` the claimed wraparound bytes would be
`C0 FE FF FF`, but the code's serialization raises `OverflowError` (`none`)
and produces no bytes at all. -/
theorem c1_counterexample :
    offsetBytes 1920 2560 = none ∧
    bytesLE4 ((((1920 - 2560 : Int).fdiv 2) % 2 ^ 32).toNat) = [192, 254, 255, 255] := by
  constructor
  · decide
  · decide

/-- C1 witness: a nonnegative case serializes, the negative case fails. -/
theorem c1_witness :
    offsetBytes 1920 1280 = some (bytesLE4 320) ∧ offsetBytes 1920 2560 = none := by
  constructor
  · have h := (c1_offset_serialization 1920 1280 (by decide) (by decide)).1 (by decide)
    exact h.trans (by decide)
  · exact (c1_offset_serialization 1920 2560 (by decide) (by decide)).2.2 (by decide)

/-- C2: when the search bytes occur in the file and the replacement has the
same length, `edit_dll` overwrites exactly the first occurrence with the
replacement bytes, records the replacement pattern, and every byte outside
the replaced range (prefix and suffix) is unchanged, as is the length. -/
theorem c2_edit_dll_replaces (content sp rp : List Nat) (S R : List Char)
    (hS : parse_signature (pyStrip S) = .ok sp)
    (hR : parse_signature R = .ok rp)
    (hlen : rp.length = sp.length)
    (hocc : ∃ i, matchesAt sp content i) :
    ∃ off, findSub sp content = some off ∧
      matchesAt sp content off ∧
      (∀ j < off, ¬ matchesAt sp content j) ∧
      edit_dll content S R = .ok ⟨some off, listWrite content off rp, some R⟩ ∧
      (listWrite content off rp).take off = content.take off ∧
      ((listWrite content off rp).drop off).take rp.length = rp ∧
      (listWrite content off rp).drop (off + rp.length) = content.drop (off + rp.length) ∧
      (listWrite content off rp).length = content.length := by
  obtain ⟨i, hi⟩ := hocc
  obtain ⟨off, hoff⟩ := findSub_isSome_of_matchesAt hi
  have hbound := findSub_bound hoff
  have hoffle : off ≤ content.length := by omega
  refine ⟨off, hoff, findSub_matchesAt hoff, findSub_min hoff, ?_, listWrite_take hoffle,
    listWrite_middle hoffle, listWrite_drop hoffle, listWrite_length (by omega)⟩
  unfold edit_dll
  rw [hS, except_bind_ok, hR, except_bind_ok, hoff]
  rfl

/-- C2 witness: a concrete file exercising strip, search and overwrite. -/
theorem c2_witness :
    ∃ off, findSub [171, 205] [1, 171, 205, 2] = some off ∧
      matchesAt [171, 205] [1, 171, 205, 2] off ∧
      (∀ j < off, ¬ matchesAt [171, 205] [1, 171, 205, 2] j) ∧
      edit_dll [1, 171, 205, 2] " AB CD ".data "DE AD".data =
        .ok ⟨some off, listWrite [1, 171, 205, 2] off [222, 173], some "DE AD".data⟩ ∧
      (listWrite [1, 171, 205, 2] off [222, 173]).take off = [1, 171, 205, 2].take off ∧
      ((listWrite [1, 171, 205, 2] off [222, 173]).drop off).take
        ([222, 173] : List Nat).length = [222, 173] ∧
      (listWrite [1, 171, 205, 2] off [222, 173]).drop (off + ([222, 173] : List Nat).length) =
        [1, 171, 205, 2].drop (off + ([222, 173] : List Nat).length) ∧
      (listWrite [1, 171, 205, 2] off [222, 173]).length =
        ([1, 171, 205, 2] : List Nat).length :=
  c2_edit_dll_replaces [1, 171, 205, 2] [171, 205] [222, 173] " AB CD ".data "DE AD".data
    (by decide) (by decide) (by decide) ⟨1, by decide⟩

/-- C3: when the search bytes do not occur in the file, `edit_dll` returns
the not-found outcome: no offset is reported, the content is unchanged, the
record file is not written, and the result is a normal return (the
`Except` is `ok`, no exception propagates), so the caller proceeds. -/
theorem c3_edit_dll_not_found (content sp rp : List Nat) (S R : List Char)
    (hS : parse_signature (pyStrip S) = .ok sp)
    (hR : parse_signature R = .ok rp)
    (habs : ∀ i, ¬ matchesAt sp content i) :
    edit_dll content S R = .ok ⟨none, content, none⟩ := by
  have hfind : findSub sp content = none := by
    cases h : findSub sp content with
    | none => rfl
    | some off => exact absurd (findSub_matchesAt h) (habs off)
  unfold edit_dll
  rw [hS, except_bind_ok, hR, except_bind_ok, hfind]
  rfl

/-- C3 witness: a file without the pattern is left untouched. -/
theorem c3_witness :
    edit_dll [1, 2, 3] "AB CD".data "DE AD".data = .ok ⟨none, [1, 2, 3], none⟩ :=
  c3_edit_dll_not_found [1, 2, 3] [171, 205] [222, 173] "AB CD".data "DE AD".data
    (by decide) (by decide) (fun i => findSub_none (by decide) i)

/-- C4: a signature string whose tokens are all two-hex-digit bytes or
wildcards (`?`/`??`) parses to exactly the byte list mapping literals to
their values and wildcards to `0x00` (spec-side conversion
`specTokens?`). -/
theorem c4_parse_signature_spec (s : List Char) (vs : List Nat)
    (h : specTokens? (pySplit s) = some vs) :
    parse_signature s = .ok vs := by
  obtain ⟨hp, hb⟩ := specTokens_parseTokens h
  unfold parse_signature
  rw [sigOfTokens_of_ok hp, if_pos (ofNat_range hb), map_ofNat_toNat]

/-- C4 witness: the spec's own example `"DE AD ? 10"`. -/
theorem c4_witness :
    specTokens? (pySplit "DE AD ? 10".data) = some [222, 173, 0, 16] ∧
    parse_signature "DE AD ? 10".data = .ok [222, 173, 0, 16] :=
  ⟨by decide, c4_parse_signature_spec "DE AD ? 10".data [222, 173, 0, 16] (by decide)⟩

/-- C5: a configured width or height of `0` makes the effective resolution
exactly the desktop resolution. -/
theorem c5_zero_sentinel (cfgW cfgH dw dh : Nat) (h : cfgW = 0 ∨ cfgH = 0) :
    effRes cfgW cfgH dw dh = (dw, dh) := by
  unfold effRes
  rw [if_pos h]

/-- C5 witness. -/
theorem c5_witness : effRes 0 720 1920 1080 = (1920, 1080) :=
  c5_zero_sentinel 0 720 1920 1080 (Or.inl rfl)

/-- C6: the default search pattern parses to 120 bytes, and the repeated
width/height replacement pattern parses to 120 bytes for every 32-bit width
and height, so the two patterns always have identical length. -/
theorem c6_table_lengths (w h : Nat) (hw : w < 2 ^ 32) (hh : h < 2 ^ 32) :
    (parse_signature defaultSearchPattern).map List.length = .ok 120 ∧
    (parse_signature (replacePatternOf w h)).map List.length = .ok 120 := by
  constructor
  · decide
  · rw [parse_replacePatternOf]
    rw [show (Except.ok ((List.replicate 15 (bytesLE4 w ++ bytesLE4 h)).flatten) :
        Except String (List Nat)).map List.length =
      Except.ok ((List.replicate 15 (bytesLE4 w ++ bytesLE4 h)).flatten).length from rfl]
    rw [length_flatten_replicate, List.length_append,
      show (bytesLE4 w).length = 4 from rfl, show (bytesLE4 h).length = 4 from rfl]

/-- C6 witness at 1920 by 1080. -/
theorem c6_witness :
    (parse_signature defaultSearchPattern).map List.length = .ok 120 ∧
    (parse_signature (replacePatternOf 1920 1080)).map List.length = .ok 120 :=
  c6_table_lengths 1920 1080 (by decide) (by decide)

/-- C7: if the replacement pattern already occurs in the file (as after a
prior successful run recorded it in `patch.txt`), rerunning `edit_dll` with
search pattern equal to the replacement pattern reports a match but leaves
the file content byte-identical: the rerun is idempotent. -/
theorem c7_edit_dll_idempotent (content rp : List Nat) (P : List Char)
    (hP : parse_signature P = .ok rp)
    (hocc : ∃ i, matchesAt rp content i) :
    ∃ off, edit_dll content P P = .ok ⟨some off, content, some P⟩ := by
  obtain ⟨i, hi⟩ := hocc
  obtain ⟨off, hoff⟩ := findSub_isSome_of_matchesAt hi
  refine ⟨off, ?_⟩
  have hmatch := findSub_matchesAt hoff
  have hPs : parse_signature (pyStrip P) = .ok rp := by
    rw [parse_signature_pyStrip]
    exact hP
  unfold edit_dll
  rw [hPs, except_bind_ok, hP, except_bind_ok, hoff]
  show Except.ok (EditResult.mk (some off) (listWrite content off rp) (some P)) =
    Except.ok (EditResult.mk (some off) content (some P))
  rw [listWrite_self hmatch]

/-- C7 witness: an already-patched file is not changed by a rerun. -/
theorem c7_witness :
    ∃ off, edit_dll [171, 205, 7] "AB CD".data "AB CD".data =
      .ok ⟨some off, [171, 205, 7], some "AB CD".data⟩ :=
  c7_edit_dll_idempotent [171, 205, 7] [171, 205] "AB CD".data (by decide) ⟨0, by decide⟩

/-- C8: the special value is the effective height shifted left by 4 bits,
serialized little-endian and rendered as uppercase hex; for height 1080 it
is 17280 and renders as `"80 43 00 00"`. -/
theorem c8_special_value :
    (∀ cfgW cfgH dw dh pd, patchCompute cfgW cfgH dw dh = some pd →
      pd.specialStr = hexJoin (bytesLE4 ((effRes cfgW cfgH dw dh).2 <<< 4))) ∧
    1080 <<< 4 = 17280 ∧
    (patchCompute 1920 1080 1920 1080).map PatchData.specialStr = some "80 43 00 00".data := by
  refine ⟨?_, by decide, by decide⟩
  intro cfgW cfgH dw dh pd hpd
  rw [patchCompute_some hpd]

/-- C8 witness: the universal part applied at 1920 by 1080. -/
theorem c8_witness :
    (patchCompute 1920 1080 1920 1080).map PatchData.specialStr =
      some (hexJoin (bytesLE4 ((effRes 1920 1080 1920 1080).2 <<< 4))) := by
  cases hpd : patchCompute 1920 1080 1920 1080 with
  | none =>
    have hsome : (patchCompute 1920 1080 1920 1080).isSome = true := by decide
    rw [hpd] at hsome
    exact Bool.noConfusion hsome
  | some pd =>
    rw [Option.map_some']
    rw [c8_special_value.1 1920 1080 1920 1080 pd hpd]

/-- C9 (amended): `parse_signature` succeeds exactly when every token is a
wildcard (`?`/`??`) or a string Python `int(_, 16)` accepts with value in
`0..255`; it fails on every other token.  (The original claim's "two hex
digits only" is too strict: `int(_, 16)` also accepts e.g. one-digit or
`0x`-prefixed tokens.) -/
theorem c9_parse_success_iff (s : List Char) :
    (∃ bs, parse_signature s = .ok bs) ↔ ∀ t ∈ pySplit s, okTokenSpec t :=
  sigOfTokens_ok_iff (pySplit s)

/-- C9 counterexample: the token `"F"` is neither a two-hex-digit byte nor a
wildcard (spec-side conversion rejects it), yet `parse_signature` succeeds
on it with value 15 instead of failing. -/
theorem c9_counterexample :
    parse_signature "F".data = .ok [15] ∧
    specTokenValue? ['F'] = none ∧
    pySplit "F".data = [['F']] := by
  refine ⟨by decide, by decide, by decide⟩

/-- C10: whenever the zero sentinel applies, the desktop width is
substituted before the offset is computed, so the computed centering offset
is exactly `0` and its serialization is `"00 00 00 00"`. -/
theorem c10_zero_offset (cfgW cfgH dw dh : Nat) (h : cfgW = 0 ∨ cfgH = 0) :
    offsetInt dw (effRes cfgW cfgH dw dh).1 = 0 ∧
    ∀ pd, patchCompute cfgW cfgH dw dh = some pd → pd.offsetStr = "00 00 00 00".data := by
  have heff : effRes cfgW cfgH dw dh = (dw, dh) := by
    unfold effRes
    rw [if_pos h]
  have hoff : offsetInt dw (effRes cfgW cfgH dw dh).1 = 0 := by
    rw [heff]
    show Int.tdiv ((dw : Int) - (dw : Int)) 2 = 0
    rw [Int.sub_self]
    decide
  refine ⟨hoff, ?_⟩
  intro pd hpd
  rw [patchCompute_some hpd]
  show hexJoin (bytesLE4 (offsetInt dw (effRes cfgW cfgH dw dh).1).toNat) = _
  rw [hoff]
  decide

/-- C10 witness: configured width 0 gives offset 0. -/
theorem c10_witness :
    offsetInt 1920 (effRes 0 720 1920 1080).1 = 0 ∧
    ∀ pd, patchCompute 0 720 1920 1080 = some pd → pd.offsetStr = "00 00 00 00".data :=
  c10_zero_offset 0 720 1920 1080 (Or.inl rfl)

end HackGU
